import Mathlib

set_option maxRecDepth 8000

/-!
Shallow embedding of the LSB steganography codec of `src/script.js`.

The core of the program converts a text message to a bit string
(`stringToBinary`), appends the sentinel `'|||END|||'`, writes the bits into
the least significant bit of the red channel of consecutive pixels
(`encodeMessage`), and later scans those LSBs back, reassembling characters
eight bits at a time and stopping at the first occurrence of the sentinel
(`decodeMessage`).  Strings of characters are modelled as lists of character
codes (`List Nat`), bit strings as `List Bool` (`true` = `'1'`), and the
canvas `ImageData` byte array as a list of RGBA pixels.
-/

/-- One RGBA pixel: the four consecutive 8-bit channel values of the canvas
`ImageData` array. -/
structure Pixel where
  r : Nat
  g : Nat
  b : Nat
  a : Nat
deriving DecidableEq, Repr

/-- The sentinel `'|||END|||'` of script.js line 14, as the codes of its nine
characters. -/
def delimiter : List Nat := [124, 124, 124, 69, 78, 68, 124, 124, 124]

/-- Binary digits of `n`, most significant digit first, exactly as the
JavaScript expression `n.toString(2)` produces them for a positive integer;
`fuel` only bounds the recursion depth, and any `fuel ≥ n` yields the full,
untruncated digit string. -/
def natBitsAux (fuel n : Nat) : List Bool :=
  match fuel with
  | 0 => []
  | fuel + 1 =>
      if n = 0 then [] else natBitsAux fuel (n / 2) ++ [decide (n % 2 = 1)]

/-- JavaScript `n.toString(2)` as a list of bits: `0` prints as the single
digit `'0'`, every other value as its digits without leading zeros. -/
def toStringBase2 (n : Nat) : List Bool :=
  if n = 0 then [false] else natBitsAux n n

/-- JavaScript `charBinary.padStart(8, '0')` (script.js line 78). -/
def padStart8 (l : List Bool) : List Bool :=
  List.replicate (8 - l.length) false ++ l

/-- The bits `stringToBinary` emits for one character:
`str.charCodeAt(i).toString(2).padStart(8, '0')` (script.js lines 76-78). -/
def charToBits (c : Nat) : List Bool :=
  padStart8 (toStringBase2 c)

/-- `stringToBinary` (script.js lines 73-82): concatenate the padded binary
representation of every character code, in character order. -/
def stringToBinary (str : List Nat) : List Bool :=
  (str.map charToBits).flatten

/-- JavaScript `parseInt(byte, 2)`: the value of a bit string read most
significant bit first. -/
def bitsToNat (l : List Bool) : Nat :=
  l.foldl (fun acc b => 2 * acc + (if b then 1 else 0)) 0

/-- `binaryToString` (script.js lines 91-100): decode the bit string eight
bits at a time; a trailing group of fewer than eight bits is discarded. -/
def binaryToString : List Bool → List Nat
  | b0 :: b1 :: b2 :: b3 :: b4 :: b5 :: b6 :: b7 :: rest =>
      bitsToNat [b0, b1, b2, b3, b4, b5, b6, b7] :: binaryToString rest
  | _ => []

/-- The embedding loop of `encodeMessage` (script.js lines 140-156): walk the
pixels in order and, while message bits remain, clear (`& 0xFE`) or set
(`| 0x01`) the LSB of the red channel according to the current bit; the loop
breaks once every bit is written, leaving the remaining pixels untouched. -/
def writeBits : List Pixel → List Bool → List Pixel
  | ps, [] => ps
  | [], _ :: _ => []
  | p :: ps, bit :: bits =>
      { p with r := if bit then p.r ||| 1 else p.r &&& 0xFE } :: writeBits ps bits

/-- The status `encodeMessage` reports through its early returns and its
final alert. -/
inductive EmbedStatus where
  | success
  | emptyInput
  | capacityExceeded
deriving DecidableEq, Repr

/-- `encodeMessage` (script.js lines 109-166) on an explicit pixel buffer:
the reported status together with the buffer state after the call.  The
empty-message check (line 118) and the capacity check `binaryMessage.length >
pixelCount` (line 131) both return before the write loop, so on those paths
the buffer is returned as given. -/
def encodeMessage (buffer : List Pixel) (message : List Nat) :
    EmbedStatus × List Pixel :=
  if message = [] then (.emptyInput, buffer)
  else
    let binaryMessage := stringToBinary (message ++ delimiter)
    if buffer.length < binaryMessage.length then (.capacityExceeded, buffer)
    else (.success, writeBits buffer binaryMessage)

/-- JavaScript `extractedText.endsWith(delimiter)` on lists of character
codes. -/
def endsWith (s t : List Nat) : Bool :=
  s.drop (s.length - t.length) == t

/-- The three outcomes `decodeMessage` can report: the delimiter was found
and the text before it is the message; the scan exhausted the buffer with
some decoded text but no delimiter; or the scan exhausted the buffer with no
complete character decoded at all. -/
inductive ExtractResult where
  | found (message : List Nat)
  | notFound (partialText : List Nat)
  | empty
deriving DecidableEq, Repr

/-- The pixel loop of `decodeMessage` (script.js lines 192-230).  `binAcc` is
the bit string accumulated so far (`binaryMessage`), `text` the characters
decoded so far (`extractedText`).  Each pixel contributes `data[i] & 0x01`;
whenever the accumulated bit count reaches a multiple of eight the last eight
bits become one character, and the delimiter-suffix check runs; the
end-of-buffer check (`i >= data.length - 4`) runs afterwards in the same
iteration.  `none` models the loop falling through without returning, which
happens only on an empty buffer. -/
def decodeLoop : List Pixel → List Bool → List Nat → Option ExtractResult
  | [], _, _ => none
  | p :: rest, binAcc, text =>
    let binAcc' := binAcc ++ [decide (p.r &&& 1 = 1)]
    if binAcc'.length % 8 = 0 then
      let byteStr := binAcc'.drop (binAcc'.length - 8)
      let text' := text ++ [bitsToNat byteStr]
      if endsWith text' delimiter then
        some (.found (text'.take (text'.length - delimiter.length)))
      else if rest = [] then
        some (if text'.length > 0 then .notFound text' else .empty)
      else
        decodeLoop rest binAcc' text'
    else if rest = [] then
      some (if text.length > 0 then .notFound text else .empty)
    else
      decodeLoop rest binAcc' text

/-- `decodeMessage` (script.js lines 177-231). -/
def decodeMessage (buffer : List Pixel) : Option ExtractResult :=
  decodeLoop buffer [] []

/-! ### Helper definitions used by the proofs -/

/-- The bit a pixel contributes during extraction: `data[i] & 0x01`. -/
def pixelBit (p : Pixel) : Bool := decide (p.r &&& 1 = 1)

/-- The red-channel LSB stream of a buffer, in scan order. -/
def lsbs (ps : List Pixel) : List Bool := ps.map pixelBit

/-- `decodeLoop` reads a pixel only through `pixelBit`; `streamDecode` is the
same loop expressed directly on the bit stream. -/
def streamDecode : List Bool → List Bool → List Nat → Option ExtractResult
  | [], _, _ => none
  | b :: rest, binAcc, text =>
    let binAcc' := binAcc ++ [b]
    if binAcc'.length % 8 = 0 then
      let byteStr := binAcc'.drop (binAcc'.length - 8)
      let text' := text ++ [bitsToNat byteStr]
      if endsWith text' delimiter then
        some (.found (text'.take (text'.length - delimiter.length)))
      else if rest = [] then
        some (if text'.length > 0 then .notFound text' else .empty)
      else
        streamDecode rest binAcc' text'
    else if rest = [] then
      some (if text.length > 0 then .notFound text else .empty)
    else
      streamDecode rest binAcc' text

-- Concrete sanity checks of the embedding.
example : charToBits 97 = [false, true, true, false, false, false, false, true] := by
  decide
example : stringToBinary [97] ++ stringToBinary [98] = stringToBinary [97, 98] := by
  decide
example : binaryToString (stringToBinary [104, 105]) = [104, 105] := by decide
example :
    (encodeMessage (List.replicate 80 ⟨10, 20, 30, 255⟩) [104]).1 =
      .success := by decide
example :
    decodeMessage (encodeMessage (List.replicate 80 ⟨10, 20, 30, 255⟩) [104]).2 =
      some (.found [104]) := by decide
example :
    decodeMessage (List.replicate 80 ⟨10, 20, 30, 255⟩) =
      some (.notFound (binaryToString (List.replicate 80 false))) := by decide

/-! ### Bitwise facts about 8-bit channel values -/

theorem lor_one_and_one : ∀ r : Fin 256, (r.val ||| 1) &&& 1 = 1 := by decide

theorem land_mask_and_one : ∀ r : Fin 256, (r.val &&& 254) &&& 1 = 0 := by decide

theorem lor_one_val : ∀ r : Fin 256, r.val ||| 1 = 2 * (r.val / 2) + 1 := by decide

theorem land_mask_val : ∀ r : Fin 256, r.val &&& 254 = 2 * (r.val / 2) := by decide

/-! ### Character-level facts -/

theorem charToBits_length_fin : ∀ c : Fin 256, (charToBits c.val).length = 8 := by
  decide

theorem bitsToNat_charToBits_fin : ∀ c : Fin 256,
    bitsToNat (charToBits c.val) = c.val := by decide

theorem charToBits_length {c : Nat} (h : c < 256) : (charToBits c).length = 8 :=
  charToBits_length_fin ⟨c, h⟩

theorem bitsToNat_charToBits {c : Nat} (h : c < 256) :
    bitsToNat (charToBits c) = c :=
  bitsToNat_charToBits_fin ⟨c, h⟩

theorem stringToBinary_nil : stringToBinary [] = [] := rfl

theorem stringToBinary_cons (c : Nat) (s : List Nat) :
    stringToBinary (c :: s) = charToBits c ++ stringToBinary s := by
  simp [stringToBinary]

theorem stringToBinary_append (s t : List Nat) :
    stringToBinary (s ++ t) = stringToBinary s ++ stringToBinary t := by
  simp [stringToBinary]

theorem stringToBinary_length {s : List Nat} (h : ∀ c ∈ s, c < 256) :
    (stringToBinary s).length = 8 * s.length := by
  induction s with
  | nil => rfl
  | cons c s ih =>
      rw [stringToBinary_cons, List.length_append,
        charToBits_length (h c (by simp)), ih (fun d hd => h d (by simp [hd]))]
      simp [List.length_cons]
      ring

theorem list_eight (l : List Bool) (h : l.length = 8) :
    ∃ b0 b1 b2 b3 b4 b5 b6 b7, l = [b0, b1, b2, b3, b4, b5, b6, b7] := by
  rcases l with _ | ⟨b0, l⟩; · simp at h
  rcases l with _ | ⟨b1, l⟩; · simp at h
  rcases l with _ | ⟨b2, l⟩; · simp at h
  rcases l with _ | ⟨b3, l⟩; · simp at h
  rcases l with _ | ⟨b4, l⟩; · simp at h
  rcases l with _ | ⟨b5, l⟩; · simp at h
  rcases l with _ | ⟨b6, l⟩; · simp at h
  rcases l with _ | ⟨b7, l⟩; · simp at h
  rcases l with _ | ⟨b8, l⟩
  · exact ⟨b0, b1, b2, b3, b4, b5, b6, b7, rfl⟩
  · simp at h

/-! ### `endsWith` facts -/

theorem endsWith_append (xs t : List Nat) : endsWith (xs ++ t) t = true := by
  unfold endsWith
  have h1 : (xs ++ t).length - t.length = xs.length := by
    simp [List.length_append]
  rw [h1, List.drop_left]
  simp

theorem lor_one_and_one' {r : Nat} (h : r < 256) : (r ||| 1) &&& 1 = 1 :=
  lor_one_and_one ⟨r, h⟩

theorem land_mask_and_one' {r : Nat} (h : r < 256) : (r &&& 254) &&& 1 = 0 :=
  land_mask_and_one ⟨r, h⟩

theorem lor_one_val' {r : Nat} (h : r < 256) : r ||| 1 = 2 * (r / 2) + 1 :=
  lor_one_val ⟨r, h⟩

theorem land_mask_val' {r : Nat} (h : r < 256) : r &&& 254 = 2 * (r / 2) :=
  land_mask_val ⟨r, h⟩

theorem decodeLoop_eq_streamDecode :
    ∀ (ps : List Pixel) (acc : List Bool) (text : List Nat),
      decodeLoop ps acc text = streamDecode (lsbs ps) acc text := by
  intro ps
  induction ps with
  | nil => intro acc text; rfl
  | cons p rest ih =>
      intro acc text
      have hmap : lsbs (p :: rest) = decide (p.r &&& 1 = 1) :: lsbs rest := rfl
      rw [hmap]
      simp only [decodeLoop, streamDecode, ih, lsbs, List.map_eq_nil_iff]

theorem lsbs_writeBits :
    ∀ (ps : List Pixel) (bits : List Bool), bits.length ≤ ps.length →
      (∀ p ∈ ps, p.r < 256) →
      lsbs (writeBits ps bits) = bits ++ (lsbs ps).drop bits.length := by
  intro ps
  induction ps with
  | nil =>
      intro bits hlen _
      cases bits with
      | nil => rfl
      | cons b bs => simp at hlen
  | cons p rest ih =>
      intro bits hlen hbyte
      cases bits with
      | nil => simp [writeBits]
      | cons b bs =>
          have hb : p.r < 256 := hbyte p (by simp)
          have hrest : ∀ q ∈ rest, q.r < 256 := fun q hq => hbyte q (by simp [hq])
          have hlen' : bs.length ≤ rest.length := by simpa using hlen
          have hbit :
              pixelBit { p with r := if b then p.r ||| 1 else p.r &&& 0xFE } = b := by
            cases b with
            | true => simp [pixelBit, lor_one_and_one' hb]
            | false => simp [pixelBit, land_mask_and_one' hb]
          show pixelBit _ :: lsbs (writeBits rest bs) = _
          rw [hbit, ih bs hlen' hrest]
          simp [lsbs]

theorem streamDecode_cons_mid (b : Bool) (rest acc : List Bool) (text : List Nat)
    (h : (acc.length + 1) % 8 ≠ 0) (hr : rest ≠ []) :
    streamDecode (b :: rest) acc text = streamDecode rest (acc ++ [b]) text := by
  have hc : ¬((acc ++ [b]).length % 8 = 0) := by simpa using h
  simp only [streamDecode]
  rw [if_neg hc, if_neg hr]

theorem streamDecode_cons_byte (b : Bool) (rest acc : List Bool) (text : List Nat)
    (h : (acc.length + 1) % 8 = 0) :
    streamDecode (b :: rest) acc text =
      (if endsWith (text ++ [bitsToNat ((acc ++ [b]).drop ((acc ++ [b]).length - 8))])
            delimiter then
        some (.found ((text ++ [bitsToNat ((acc ++ [b]).drop ((acc ++ [b]).length - 8))]).take
          ((text ++ [bitsToNat ((acc ++ [b]).drop ((acc ++ [b]).length - 8))]).length -
            delimiter.length)))
      else if rest = [] then
        some (.notFound (text ++ [bitsToNat ((acc ++ [b]).drop ((acc ++ [b]).length - 8))]))
      else
        streamDecode rest (acc ++ [b])
          (text ++ [bitsToNat ((acc ++ [b]).drop ((acc ++ [b]).length - 8))])) := by
  have hc : (acc ++ [b]).length % 8 = 0 := by simpa using h
  simp only [streamDecode]
  rw [if_pos hc]
  have hpos : (text ++ [bitsToNat ((acc ++ [b]).drop ((acc ++ [b]).length - 8))]).length > 0 := by
    simp
  simp only [hpos, if_pos, gt_iff_lt]

theorem streamDecode_eight (b0 b1 b2 b3 b4 b5 b6 b7 : Bool) (rest acc : List Bool)
    (text : List Nat) (h : acc.length % 8 = 0) :
    streamDecode (b0 :: b1 :: b2 :: b3 :: b4 :: b5 :: b6 :: b7 :: rest) acc text =
      (if endsWith (text ++ [bitsToNat [b0, b1, b2, b3, b4, b5, b6, b7]]) delimiter then
        some (.found ((text ++ [bitsToNat [b0, b1, b2, b3, b4, b5, b6, b7]]).take
          ((text ++ [bitsToNat [b0, b1, b2, b3, b4, b5, b6, b7]]).length - delimiter.length)))
      else if rest = [] then
        some (.notFound (text ++ [bitsToNat [b0, b1, b2, b3, b4, b5, b6, b7]]))
      else
        streamDecode rest (acc ++ [b0, b1, b2, b3, b4, b5, b6, b7])
          (text ++ [bitsToNat [b0, b1, b2, b3, b4, b5, b6, b7]])) := by
  rw [streamDecode_cons_mid b0 _ _ _ (by omega) (by simp)]
  rw [streamDecode_cons_mid b1 _ _ _
    (by simp only [List.length_append, List.length_cons, List.length_nil]; omega) (by simp)]
  rw [streamDecode_cons_mid b2 _ _ _
    (by simp only [List.length_append, List.length_cons, List.length_nil]; omega) (by simp)]
  rw [streamDecode_cons_mid b3 _ _ _
    (by simp only [List.length_append, List.length_cons, List.length_nil]; omega) (by simp)]
  rw [streamDecode_cons_mid b4 _ _ _
    (by simp only [List.length_append, List.length_cons, List.length_nil]; omega) (by simp)]
  rw [streamDecode_cons_mid b5 _ _ _
    (by simp only [List.length_append, List.length_cons, List.length_nil]; omega) (by simp)]
  rw [streamDecode_cons_mid b6 _ _ _
    (by simp only [List.length_append, List.length_cons, List.length_nil]; omega) (by simp)]
  rw [streamDecode_cons_byte b7 _ _ _
    (by simp only [List.length_append, List.length_cons, List.length_nil]; omega)]
  simp only [List.append_assoc, List.cons_append, List.nil_append, List.singleton_append]
  have h1 : (acc ++ [b0, b1, b2, b3, b4, b5, b6, b7]).length - 8 = acc.length := by
    simp
  rw [h1, List.drop_left]

theorem list_eight_cons (s : List Bool) (h : 8 ≤ s.length) :
    ∃ b0 b1 b2 b3 b4 b5 b6 b7 rest,
      s = b0 :: b1 :: b2 :: b3 :: b4 :: b5 :: b6 :: b7 :: rest := by
  rcases s with _ | ⟨b0, s⟩; · simp at h
  rcases s with _ | ⟨b1, s⟩; · simp at h
  rcases s with _ | ⟨b2, s⟩; · simp at h
  rcases s with _ | ⟨b3, s⟩; · simp at h
  rcases s with _ | ⟨b4, s⟩; · simp at h
  rcases s with _ | ⟨b5, s⟩; · simp at h
  rcases s with _ | ⟨b6, s⟩; · simp at h
  rcases s with _ | ⟨b7, s⟩; · simp at h
  exact ⟨b0, b1, b2, b3, b4, b5, b6, b7, s, rfl⟩

theorem binaryToString_short : ∀ (s : List Bool), s.length < 8 → binaryToString s = [] := by
  intro s h
  rcases s with _ | ⟨a0, s⟩; · rfl
  rcases s with _ | ⟨a1, s⟩; · rfl
  rcases s with _ | ⟨a2, s⟩; · rfl
  rcases s with _ | ⟨a3, s⟩; · rfl
  rcases s with _ | ⟨a4, s⟩; · rfl
  rcases s with _ | ⟨a5, s⟩; · rfl
  rcases s with _ | ⟨a6, s⟩; · rfl
  rcases s with _ | ⟨a7, s⟩; · rfl
  simp at h; omega

theorem binaryToString_cons8 (b0 b1 b2 b3 b4 b5 b6 b7 : Bool) (rest : List Bool) :
    binaryToString (b0 :: b1 :: b2 :: b3 :: b4 :: b5 :: b6 :: b7 :: rest) =
      bitsToNat [b0, b1, b2, b3, b4, b5, b6, b7] :: binaryToString rest := rfl

theorem streamDecode_short :
    ∀ (s acc : List Bool) (text : List Nat), s ≠ [] →
      s.length + acc.length % 8 < 8 →
      streamDecode s acc text =
        some (if text.length > 0 then .notFound text else .empty) := by
  intro s
  induction s with
  | nil => intro acc text hne _; exact absurd rfl hne
  | cons b s ih =>
      intro acc text _ hlen
      cases s with
      | nil =>
          have hc : ¬((acc.length + 1) % 8 = 0) := by
            simp only [List.length_cons, List.length_nil] at hlen
            omega
          simp [streamDecode, hc]
      | cons b' s' =>
          rw [streamDecode_cons_mid b _ _ _ (by simp at hlen; omega) (by simp)]
          apply ih _ _ (by simp)
          simp only [List.length_append, List.length_cons, List.length_nil] at hlen ⊢
          omega

/-- The decoding loop, fed the encoding of a nonempty byte string `S` followed
by arbitrary residual bits, stops at the first position where the decoded text
ends with the delimiter; if that happens only once the whole of `S` is
decoded, the result is `found` of everything before the delimiter. -/
theorem decode_chars :
    ∀ (S : List Nat) (acc : List Bool) (done : List Nat) (junk : List Bool),
      acc.length % 8 = 0 →
      (∀ c ∈ S, c < 256) →
      S ≠ [] →
      (∀ j, j < S.length → endsWith (done ++ S.take j) delimiter = false) →
      endsWith (done ++ S) delimiter = true →
      streamDecode (stringToBinary S ++ junk) acc done =
        some (.found ((done ++ S).take ((done ++ S).length - delimiter.length))) := by
  intro S
  induction S with
  | nil => intro acc done junk _ _ hne _ _; exact absurd rfl hne
  | cons c S ih =>
      intro acc done junk hacc hlt _ hearly hfin
      have hc : c < 256 := hlt c (by simp)
      obtain ⟨b0, b1, b2, b3, b4, b5, b6, b7, hbits⟩ :=
        list_eight (charToBits c) (charToBits_length hc)
      have hstream : stringToBinary (c :: S) ++ junk =
          b0 :: b1 :: b2 :: b3 :: b4 :: b5 :: b6 :: b7 :: (stringToBinary S ++ junk) := by
        rw [stringToBinary_cons, hbits]
        simp
      rw [hstream, streamDecode_eight _ _ _ _ _ _ _ _ _ _ _ hacc]
      have hval : bitsToNat [b0, b1, b2, b3, b4, b5, b6, b7] = c := by
        rw [← hbits]; exact bitsToNat_charToBits hc
      rw [hval]
      cases S with
      | nil =>
          have hdone : endsWith (done ++ [c]) delimiter = true := by
            simpa using hfin
          simp [hdone]
      | cons c' S' =>
          have hne1 : endsWith (done ++ [c]) delimiter = false := by
            have := hearly 1 (by simp)
            simpa using this
          have hc' : c' < 256 := hlt c' (by simp)
          have hlen8 : (charToBits c').length = 8 := charToBits_length hc'
          have hchar_ne : charToBits c' ≠ [] := by
            intro hc0
            rw [hc0] at hlen8
            simp at hlen8
          have hSne : stringToBinary (c' :: S') ++ junk ≠ [] := by
            rw [stringToBinary_cons]
            intro hcon
            rcases List.append_eq_nil.mp hcon with ⟨h1, _⟩
            rcases List.append_eq_nil.mp h1 with ⟨h2, _⟩
            exact hchar_ne h2
          rw [if_neg (by simp [hne1]), if_neg hSne]
          have hlt' : ∀ d ∈ c' :: S', d < 256 := fun d hd => hlt d (by simp [hd])
          have hearly' : ∀ j, j < (c' :: S').length →
              endsWith ((done ++ [c]) ++ (c' :: S').take j) delimiter = false := by
            intro j hj
            have := hearly (j + 1) (by simpa using Nat.succ_lt_succ hj)
            simpa [List.take_succ_cons, List.append_assoc] using this
          have hfin' : endsWith ((done ++ [c]) ++ (c' :: S')) delimiter = true := by
            simpa [List.append_assoc] using hfin
          have hrec := ih (acc ++ [b0, b1, b2, b3, b4, b5, b6, b7]) (done ++ [c]) junk
            (by simp [List.length_append]; omega) hlt' (by simp) hearly' hfin'
          rw [hrec]
          simp [List.append_assoc]

/-- Exhaustion: fed a nonempty bit stream, the loop either reports a found
message or exhausts the stream with exactly the text `binaryToString` would
decode from it. -/
theorem streamDecode_shape :
    ∀ (n : Nat) (s acc : List Bool) (text : List Nat),
      s.length ≤ n → s ≠ [] → acc.length % 8 = 0 →
      (∃ m, streamDecode s acc text = some (.found m)) ∨
      streamDecode s acc text =
        some (if (text ++ binaryToString s).length > 0 then
          .notFound (text ++ binaryToString s) else .empty) := by
  intro n
  induction n with
  | zero =>
      intro s acc text hle hne _
      cases s with
      | nil => exact absurd rfl hne
      | cons b s => simp at hle
  | succ n ih =>
      intro s acc text hle hne hacc
      by_cases h8 : s.length < 8
      · right
        rw [streamDecode_short s acc text hne (by omega),
          binaryToString_short s h8]
        simp
      · obtain ⟨b0, b1, b2, b3, b4, b5, b6, b7, rest, hs⟩ :=
          list_eight_cons s (by omega)
        subst hs
        rw [streamDecode_eight _ _ _ _ _ _ _ _ _ _ _ hacc]
        by_cases hend :
            endsWith (text ++ [bitsToNat [b0, b1, b2, b3, b4, b5, b6, b7]]) delimiter = true
        · left
          exact ⟨_, by rw [if_pos hend]⟩
        · rw [if_neg hend]
          by_cases hrest : rest = []
          · subst hrest
            right
            rw [if_pos rfl, binaryToString_cons8]
            simp [binaryToString]
          · rw [if_neg hrest]
            have hle' : rest.length ≤ n := by simp at hle; omega
            have hacc' : (acc ++ [b0, b1, b2, b3, b4, b5, b6, b7]).length % 8 = 0 := by
              simp [List.length_append]; omega
            rcases ih rest (acc ++ [b0, b1, b2, b3, b4, b5, b6, b7])
                (text ++ [bitsToNat [b0, b1, b2, b3, b4, b5, b6, b7]]) hle' hrest hacc' with
              ⟨m, hm⟩ | hnf
            · exact Or.inl ⟨m, hm⟩
            · right
              rw [hnf, binaryToString_cons8]
              simp [List.append_assoc]

/-! ### Claim theorems -/

/-- C9: `encodeMessage` called with an empty message text is rejected with
`emptyInput` and the pixel buffer is left unchanged — the empty check is the
first thing the function does after looking at the message. -/
theorem embed_empty_input_rejected (buffer : List Pixel) :
    encodeMessage buffer [] = (.emptyInput, buffer) := by
  simp [encodeMessage]

/-- C3: whenever `encodeMessage` reports `capacityExceeded`, the buffer after
the call is byte-for-byte the buffer before it — the capacity check happens
before any write. -/
theorem embed_capacity_atomic (buffer : List Pixel) (message : List Nat)
    (h : (encodeMessage buffer message).1 = .capacityExceeded) :
    (encodeMessage buffer message).2 = buffer := by
  by_cases hm : message = []
  · simp [encodeMessage, hm] at h
  · by_cases hcap :
        buffer.length < (stringToBinary (message ++ delimiter)).length
    · simp [encodeMessage, hm, hcap]
    · simp [encodeMessage, hm, hcap] at h

theorem embed_capacity_atomic_witness :
    (encodeMessage [] [97]).1 = .capacityExceeded ∧ (encodeMessage [] [97]).2 = [] :=
  ⟨by decide, embed_capacity_atomic [] [97] (by decide)⟩

/-- C5: a buffer of exactly `N` pixels accepts a message whose framed bit
length (`stringToBinary` of message plus delimiter) is exactly `N`, and
rejects with `capacityExceeded` a message whose framed bit length is
`N + 1`. -/
theorem capacity_boundary (ps : List Pixel) (M M' : List Nat)
    (hM : M ≠ []) (hM' : M' ≠ [])
    (hlen : (stringToBinary (M ++ delimiter)).length = ps.length)
    (hlen' : (stringToBinary (M' ++ delimiter)).length = ps.length + 1) :
    (encodeMessage ps M).1 = .success ∧
    (encodeMessage ps M').1 = .capacityExceeded := by
  constructor
  · simp [encodeMessage, hM, hlen]
  · simp [encodeMessage, hM', hlen']

theorem capacity_boundary_witness :
    (encodeMessage (List.replicate 80 ⟨0, 0, 0, 0⟩) [97]).1 = .success ∧
    (encodeMessage (List.replicate 80 ⟨0, 0, 0, 0⟩) [256]).1 = .capacityExceeded :=
  capacity_boundary (List.replicate 80 ⟨0, 0, 0, 0⟩) [97] [256]
    (by decide) (by decide) (by decide) (by decide)

/-- C7: decoding a bit string of length `8k + r` with `0 < r < 8` discards
the trailing incomplete group: the result is exactly the decoding of the
first `8k` bits. -/
theorem partial_byte_discard :
    ∀ (k : Nat) (l : List Bool) (r : Nat), 0 < r → r < 8 →
      l.length = 8 * k + r →
      binaryToString l = binaryToString (l.take (8 * k)) := by
  intro k
  induction k with
  | zero =>
      intro l r hr0 hr8 hl
      rw [binaryToString_short l (by omega)]
      simp [binaryToString]
  | succ k ih =>
      intro l r hr0 hr8 hl
      obtain ⟨b0, b1, b2, b3, b4, b5, b6, b7, rest, hs⟩ :=
        list_eight_cons l (by omega)
      subst hs
      have hrest : rest.length = 8 * k + r := by
        simp only [List.length_cons] at hl
        omega
      have htake :
          binaryToString ((b0 :: b1 :: b2 :: b3 :: b4 :: b5 :: b6 :: b7 :: rest).take
            (8 * (k + 1))) =
          bitsToNat [b0, b1, b2, b3, b4, b5, b6, b7] ::
            binaryToString (rest.take (8 * k)) := by
        have h1 : (b0 :: b1 :: b2 :: b3 :: b4 :: b5 :: b6 :: b7 :: rest : List Bool) =
            [b0, b1, b2, b3, b4, b5, b6, b7] ++ rest := rfl
        have h2 : 8 * (k + 1) =
            ([b0, b1, b2, b3, b4, b5, b6, b7] : List Bool).length + 8 * k := by
          simp
          ring
        rw [h1, h2, List.take_append]
        rfl
      rw [binaryToString_cons8, htake, ih rest r hr0 hr8 hrest]

theorem partial_byte_discard_witness :
    binaryToString [true, false, true] = binaryToString ([true, false, true].take (8 * 0)) :=
  partial_byte_discard 0 [true, false, true] 3 (by decide) (by decide) (by decide)

theorem stringToBinary_chunk :
    ∀ (s : List Nat), (∀ c ∈ s, c < 256) → ∀ i, ∀ hi : i < s.length,
      ((stringToBinary s).drop (8 * i)).take 8 = charToBits (s.get ⟨i, hi⟩) := by
  intro s
  induction s with
  | nil => intro _ i hi; simp at hi
  | cons c tl ih =>
      intro h i hi
      have hc : c < 256 := h c (by simp)
      have h8 : (charToBits c).length = 8 := charToBits_length hc
      cases i with
      | zero =>
          rw [stringToBinary_cons, Nat.mul_zero, List.drop_zero, ← h8,
            List.take_left]
          rfl
      | succ j =>
          rw [stringToBinary_cons]
          have hdrop : (charToBits c ++ stringToBinary tl).drop (8 * (j + 1)) =
              (stringToBinary tl).drop (8 * j) := by
            have h2 : 8 * (j + 1) = (charToBits c).length + 8 * j := by
              rw [h8]; ring
            rw [h2, List.drop_append]
          rw [hdrop]
          exact ih (fun d hd => h d (by simp [hd])) j (by simpa using hi)

/-- C8: for a string of single-byte characters, `stringToBinary` emits, for
the `i`-th character, exactly the `i`-th 8-bit group of the output; that
group is 8 bits long and its most-significant-bit-first value is the
character code, and the total output length is 8 × character count. -/
theorem encode_format (s : List Nat) (h : ∀ c ∈ s, c < 256) :
    (stringToBinary s).length = 8 * s.length ∧
    ∀ i, ∀ hi : i < s.length,
      ((stringToBinary s).drop (8 * i)).take 8 = charToBits (s.get ⟨i, hi⟩) ∧
      (charToBits (s.get ⟨i, hi⟩)).length = 8 ∧
      bitsToNat (charToBits (s.get ⟨i, hi⟩)) = s.get ⟨i, hi⟩ := by
  refine ⟨stringToBinary_length h, fun i hi => ⟨stringToBinary_chunk s h i hi, ?_, ?_⟩⟩
  · exact charToBits_length (h _ (List.get_mem s i hi))
  · exact bitsToNat_charToBits (h _ (List.get_mem s i hi))

theorem encode_format_witness :
    (stringToBinary [72, 105]).length = 8 * 2 :=
  (encode_format [72, 105] (by decide)).1

theorem writeBits_length : ∀ (ps : List Pixel) (bits : List Bool),
    (writeBits ps bits).length = ps.length := by
  intro ps
  induction ps with
  | nil => intro bits; cases bits <;> rfl
  | cons p tl ih =>
      intro bits
      cases bits with
      | nil => rfl
      | cons b bs => simp [writeBits, ih]

theorem writeBits_getElem_ge : ∀ (ps : List Pixel) (bits : List Bool) (i : Nat),
    bits.length ≤ i → (writeBits ps bits)[i]? = ps[i]? := by
  intro ps
  induction ps with
  | nil => intro bits i _; cases bits <;> rfl
  | cons p tl ih =>
      intro bits i h
      cases bits with
      | nil => rfl
      | cons b bs =>
          cases i with
          | zero => simp at h
          | succ j =>
              show (writeBits (p :: tl) (b :: bs))[j + 1]? = _
              simp only [writeBits, List.getElem?_cons_succ]
              exact ih bs j (by simpa using h)

theorem writeBits_getElem_lt : ∀ (ps : List Pixel) (bits : List Bool) (i : Nat)
    (p : Pixel) (bit : Bool), ps[i]? = some p → bits[i]? = some bit →
    (writeBits ps bits)[i]? =
      some { p with r := if bit then p.r ||| 1 else p.r &&& 0xFE } := by
  intro ps
  induction ps with
  | nil => intro bits i p bit hp _; simp at hp
  | cons q tl ih =>
      intro bits i p bit hp hb
      cases bits with
      | nil => simp at hb
      | cons b bs =>
          cases i with
          | zero =>
              simp only [List.getElem?_cons_zero, Option.some_inj] at hp hb
              subst hp
              subst hb
              simp [writeBits]
          | succ j =>
              simp only [List.getElem?_cons_succ] at hp hb
              show (writeBits (q :: tl) (b :: bs))[j + 1]? = _
              simp only [writeBits, List.getElem?_cons_succ]
              exact ih bs j p bit hp hb

/-- C4: for an embed of a bit sequence of length `L` into a large enough
buffer of 8-bit pixels, every pixel keeps its green, blue and alpha bytes;
a pixel at index `< L` keeps the upper seven bits of its red byte (so the red
value changes by at most 1), and every pixel at index `≥ L` is completely
unchanged. -/
theorem embed_frame (ps : List Pixel) (bits : List Bool)
    (hcap : bits.length ≤ ps.length) (hbyte : ∀ p ∈ ps, p.r < 256) :
    (writeBits ps bits).length = ps.length ∧
    ∀ i p q, ps[i]? = some p → (writeBits ps bits)[i]? = some q →
      (q.g = p.g ∧ q.b = p.b ∧ q.a = p.a) ∧
      q.r / 2 = p.r / 2 ∧ q.r ≤ p.r + 1 ∧ p.r ≤ q.r + 1 ∧
      (bits.length ≤ i → q = p) := by
  refine ⟨writeBits_length ps bits, fun i p q hp hq => ?_⟩
  by_cases hi : i < bits.length
  · have hbit : bits[i]? = some bits[i] := List.getElem?_eq_getElem hi
    rw [writeBits_getElem_lt ps bits i p (bits[i]) hp hbit, Option.some_inj] at hq
    have hp256 : p.r < 256 := hbyte p (List.getElem?_mem hp)
    subst hq
    have key : ∀ b : Bool,
        (if b = true then p.r ||| 1 else p.r &&& 254) / 2 = p.r / 2 ∧
        (if b = true then p.r ||| 1 else p.r &&& 254) ≤ p.r + 1 ∧
        p.r ≤ (if b = true then p.r ||| 1 else p.r &&& 254) + 1 := by
      intro b
      cases b
      · rw [if_neg (by simp), land_mask_val' hp256]
        omega
      · rw [if_pos rfl, lor_one_val' hp256]
        omega
    exact ⟨⟨rfl, rfl, rfl⟩, (key (bits[i])).1, (key (bits[i])).2.1,
      (key (bits[i])).2.2, fun hle => absurd hle (by omega)⟩
  · rw [writeBits_getElem_ge ps bits i (by omega), hp, Option.some_inj] at hq
    subst hq
    exact ⟨⟨rfl, rfl, rfl⟩, rfl, by omega, by omega, fun _ => rfl⟩

theorem embed_frame_witness :
    (writeBits [⟨7, 8, 9, 10⟩, ⟨200, 1, 2, 3⟩] [true]).length = 2 ∧
    ∀ i p q, ([⟨7, 8, 9, 10⟩, ⟨200, 1, 2, 3⟩] : List Pixel)[i]? = some p →
      (writeBits [⟨7, 8, 9, 10⟩, ⟨200, 1, 2, 3⟩] [true])[i]? = some q →
      (q.g = p.g ∧ q.b = p.b ∧ q.a = p.a) ∧
      q.r / 2 = p.r / 2 ∧ q.r ≤ p.r + 1 ∧ p.r ≤ q.r + 1 ∧
      (([true] : List Bool).length ≤ i → q = p) :=
  embed_frame [⟨7, 8, 9, 10⟩, ⟨200, 1, 2, 3⟩] [true] (by decide) (by decide)

theorem bitsToNat_append_bit (l : List Bool) (b : Bool) :
    bitsToNat (l ++ [b]) = 2 * bitsToNat l + (if b then 1 else 0) := by
  simp [bitsToNat, List.foldl_append]

theorem bitsToNat_replicate_false_append (k : Nat) (l : List Bool) :
    bitsToNat (List.replicate k false ++ l) = bitsToNat l := by
  induction k with
  | zero => rfl
  | succ k ih =>
      rw [List.replicate_succ, List.cons_append]
      show bitsToNat (false :: (List.replicate k false ++ l)) = bitsToNat l
      have hstep : bitsToNat (false :: (List.replicate k false ++ l)) =
          bitsToNat (List.replicate k false ++ l) := rfl
      rw [hstep, ih]

theorem bitsToNat_natBitsAux : ∀ (fuel n : Nat), n ≤ fuel →
    bitsToNat (natBitsAux fuel n) = n := by
  intro fuel
  induction fuel with
  | zero =>
      intro n h
      have : n = 0 := by omega
      subst this
      rfl
  | succ fuel ih =>
      intro n h
      by_cases h0 : n = 0
      · subst h0; rfl
      · show bitsToNat (natBitsAux (fuel + 1) n) = n
        have hdef : natBitsAux (fuel + 1) n =
            natBitsAux fuel (n / 2) ++ [decide (n % 2 = 1)] := by
          simp [natBitsAux, h0]
        rw [hdef, bitsToNat_append_bit, ih (n / 2) (by omega)]
        rcases Nat.mod_two_eq_zero_or_one n with h2 | h2 <;> simp [h2] <;> omega

theorem bitsToNat_lt : ∀ l : List Bool, bitsToNat l < 2 ^ l.length := by
  intro l
  induction l using List.reverseRecOn with
  | nil => simp [bitsToNat]
  | append_singleton l b ih =>
      rw [bitsToNat_append_bit]
      have hp : (2 : Nat) ^ (l ++ [b]).length = 2 * 2 ^ l.length := by
        simp [List.length_append, pow_succ]
        ring
      rw [hp]
      cases b <;> simp <;> omega

/-- `stringToBinary` never truncates: the value encoded for a character is
always the full character code, whatever its size. -/
theorem charToBits_value (c : Nat) : bitsToNat (charToBits c) = c := by
  unfold charToBits padStart8
  rw [bitsToNat_replicate_false_append]
  unfold toStringBase2
  by_cases h0 : c = 0
  · subst h0; rfl
  · rw [if_neg h0]
    exact bitsToNat_natBitsAux c c le_rfl

theorem charToBits_length_ge (c : Nat) : 8 ≤ (charToBits c).length := by
  unfold charToBits padStart8
  simp [List.length_append]
  omega

theorem charToBits_long {c : Nat} (h : 256 ≤ c) : 8 < (charToBits c).length := by
  by_contra hle
  push_neg at hle
  have hv := charToBits_value c
  have hlt := bitsToNat_lt (charToBits c)
  have hpow : (2 : Nat) ^ (charToBits c).length ≤ 2 ^ 8 :=
    Nat.pow_le_pow_right (by omega) hle
  have h28 : (2 : Nat) ^ 8 = 256 := by norm_num
  omega

theorem stringToBinary_length_ge : ∀ s : List Nat,
    8 * s.length ≤ (stringToBinary s).length := by
  intro s
  induction s with
  | nil => simp [stringToBinary]
  | cons c tl ih =>
      rw [stringToBinary_cons, List.length_append]
      have := charToBits_length_ge c
      simp only [List.length_cons]
      omega

/-- C10: a character with code point ≥ 256 is encoded by `stringToBinary` as
strictly more than 8 bits — the full binary representation of the code point,
not a truncation — so the output of `stringToBinary` on any string containing
it is strictly longer than 8 × character count (shifting the byte alignment
of everything that follows it). -/
theorem wide_char_expansion (c : Nat) (s : List Nat) (hc : 256 ≤ c) (hm : c ∈ s) :
    8 < (charToBits c).length ∧ bitsToNat (charToBits c) = c ∧
    8 * s.length < (stringToBinary s).length := by
  have hlen : ∀ t : List Nat, c ∈ t → 8 * t.length < (stringToBinary t).length := by
    intro t
    induction t with
    | nil => intro hmem; simp at hmem
    | cons d tl ih =>
        intro hmem
        rw [stringToBinary_cons, List.length_append]
        rcases List.mem_cons.mp hmem with rfl | hmem'
        · have h1 := charToBits_long hc
          have h2 := stringToBinary_length_ge tl
          simp only [List.length_cons]
          omega
        · have h1 := charToBits_length_ge d
          have h2 := ih hmem'
          simp only [List.length_cons]
          omega
  exact ⟨charToBits_long hc, charToBits_value c, hlen s hm⟩

theorem wide_char_expansion_witness :
    8 < (charToBits 256).length ∧ bitsToNat (charToBits 256) = 256 ∧
    8 * ([65, 256] : List Nat).length < (stringToBinary [65, 256]).length :=
  wide_char_expansion 256 [65, 256] (by decide) (by decide)

theorem delimiter_chars_lt : ∀ c ∈ delimiter, c < 256 := by decide

/-- C1 (amended): the round trip holds for every nonempty message of
single-byte characters that fits in the buffer, provided the delimiter does
not occur early in the framed stream (its only occurrence in
`message ++ delimiter` is the final one); extraction then returns `found`
of exactly the original message. -/
theorem roundtrip (M : List Nat) (ps : List Pixel)
    (hM : M ≠ []) (hchars : ∀ c ∈ M, c < 256)
    (hbyte : ∀ p ∈ ps, p.r < 256)
    (hnd : ∀ j, j < M.length + 9 →
      endsWith ((M ++ delimiter).take j) delimiter = false)
    (hcap : (M.length + 9) * 8 ≤ ps.length) :
    (encodeMessage ps M).1 = .success ∧
    decodeMessage (encodeMessage ps M).2 = some (.found M) := by
  have hall : ∀ c ∈ M ++ delimiter, c < 256 := by
    intro c hc
    rcases List.mem_append.mp hc with h | h
    · exact hchars c h
    · exact delimiter_chars_lt c h
  have hblen : (stringToBinary (M ++ delimiter)).length = 8 * (M.length + 9) := by
    rw [stringToBinary_length hall]
    simp [delimiter]
  have hle : (stringToBinary (M ++ delimiter)).length ≤ ps.length := by
    rw [hblen]; omega
  have hsucc : encodeMessage ps M =
      (.success, writeBits ps (stringToBinary (M ++ delimiter))) := by
    unfold encodeMessage
    rw [if_neg hM]
    exact if_neg (Nat.not_lt.mpr hle)
  refine ⟨by rw [hsucc], ?_⟩
  rw [hsucc]
  show decodeLoop (writeBits ps (stringToBinary (M ++ delimiter))) [] [] = _
  rw [decodeLoop_eq_streamDecode, lsbs_writeBits ps _ hle hbyte]
  have hearly : ∀ j, j < (M ++ delimiter).length →
      endsWith (([] : List Nat) ++ (M ++ delimiter).take j) delimiter = false := by
    intro j hj
    have hj' : j < M.length + 9 := by
      simpa [delimiter] using hj
    simpa using hnd j hj'
  have hfin : endsWith (([] : List Nat) ++ (M ++ delimiter)) delimiter = true := by
    simpa using endsWith_append M delimiter
  rw [decode_chars (M ++ delimiter) [] []
    ((lsbs ps).drop (stringToBinary (M ++ delimiter)).length)
    (by simp) hall (by simp [delimiter]) hearly hfin]
  have htake : (([] : List Nat) ++ (M ++ delimiter)).take
      ((([] : List Nat) ++ (M ++ delimiter)).length - delimiter.length) = M := by
    have h9 : (([] : List Nat) ++ (M ++ delimiter)).length - delimiter.length =
        M.length := by
      simp
    rw [h9, List.nil_append, List.take_left]
  rw [htake]

theorem roundtrip_witness :
    (encodeMessage (List.replicate 88 ⟨1, 2, 3, 4⟩) [104, 105]).1 = .success ∧
    decodeMessage (encodeMessage (List.replicate 88 ⟨1, 2, 3, 4⟩) [104, 105]).2 =
      some (.found [104, 105]) :=
  roundtrip [104, 105] (List.replicate 88 ⟨1, 2, 3, 4⟩) (by decide) (by decide)
    (by decide) (by decide) (by decide)

/-- C1 as literally stated is false: the message `'ab|||END|||cd'` satisfies
the capacity hypothesis `(len(M)+9)*8 ≤ capacity` on a 176-pixel buffer, yet
extracting after embedding does not return the original message (the embedded
copy of the delimiter inside the message truncates extraction early). -/
theorem roundtrip_counterexample :
    ((([97, 98, 124, 124, 124, 69, 78, 68, 124, 124, 124, 99, 100] :
        List Nat).length + 9) * 8 ≤
      (List.replicate 176 (⟨0, 0, 0, 0⟩ : Pixel)).length) ∧
    decodeMessage (encodeMessage (List.replicate 176 ⟨0, 0, 0, 0⟩)
        [97, 98, 124, 124, 124, 69, 78, 68, 124, 124, 124, 99, 100]).2 ≠
      some (.found [97, 98, 124, 124, 124, 69, 78, 68, 124, 124, 124, 99, 100]) := by
  decide

/-- C6: embedding the message `'ab|||END|||cd'` (which contains the
delimiter) into any large enough byte buffer and then extracting recovers
`found 'ab'` only: extraction stops at the first occurrence of the delimiter
in the decoded stream. -/
theorem delimiter_truncation (ps : List Pixel)
    (hbyte : ∀ p ∈ ps, p.r < 256) (hcap : 176 ≤ ps.length) :
    (encodeMessage ps
        [97, 98, 124, 124, 124, 69, 78, 68, 124, 124, 124, 99, 100]).1 =
      .success ∧
    decodeMessage (encodeMessage ps
        [97, 98, 124, 124, 124, 69, 78, 68, 124, 124, 124, 99, 100]).2 =
      some (.found [97, 98]) := by
  have hblen : (stringToBinary
      ([97, 98, 124, 124, 124, 69, 78, 68, 124, 124, 124, 99, 100] ++
        delimiter)).length = 176 := by decide
  have hle : (stringToBinary
      ([97, 98, 124, 124, 124, 69, 78, 68, 124, 124, 124, 99, 100] ++
        delimiter)).length ≤ ps.length := by omega
  have hsucc : encodeMessage ps
      [97, 98, 124, 124, 124, 69, 78, 68, 124, 124, 124, 99, 100] =
      (.success, writeBits ps (stringToBinary
        ([97, 98, 124, 124, 124, 69, 78, 68, 124, 124, 124, 99, 100] ++
          delimiter))) := by
    unfold encodeMessage
    rw [if_neg (by decide)]
    exact if_neg (Nat.not_lt.mpr hle)
  refine ⟨by rw [hsucc], ?_⟩
  rw [hsucc]
  show decodeLoop _ [] [] = _
  rw [decodeLoop_eq_streamDecode, lsbs_writeBits ps _ hle hbyte]
  have hsplit : stringToBinary
      ([97, 98, 124, 124, 124, 69, 78, 68, 124, 124, 124, 99, 100] ++
        delimiter) =
      stringToBinary ([97, 98] ++ delimiter) ++
        stringToBinary ([99, 100] ++ delimiter) := by decide
  rw [hsplit, List.append_assoc]
  rw [decode_chars ([97, 98] ++ delimiter) [] [] _
    (by simp) (by decide) (by decide) (by decide) (by decide)]
  decide

theorem delimiter_truncation_witness :
    (encodeMessage (List.replicate 200 ⟨9, 9, 9, 9⟩)
        [97, 98, 124, 124, 124, 69, 78, 68, 124, 124, 124, 99, 100]).1 =
      .success ∧
    decodeMessage (encodeMessage (List.replicate 200 ⟨9, 9, 9, 9⟩)
        [97, 98, 124, 124, 124, 69, 78, 68, 124, 124, 124, 99, 100]).2 =
      some (.found [97, 98]) :=
  delimiter_truncation (List.replicate 200 ⟨9, 9, 9, 9⟩) (by decide) (by decide)

/-- C2: on any buffer of `w × h` pixels (`w, h ≥ 1`), extraction terminates
with one of the three represented outcomes and never falls through: when the
scan exhausts the buffer without finding the delimiter, the result is
`notFound` of the accumulated decoded text when that text is nonempty, and
`empty` otherwise. -/
theorem extraction_total (w h : Nat) (ps : List Pixel)
    (hw : 1 ≤ w) (hh : 1 ≤ h) (hlen : ps.length = w * h) :
    (∃ m, decodeMessage ps = some (.found m)) ∨
    (decodeMessage ps = some (.notFound (binaryToString (lsbs ps))) ∧
      binaryToString (lsbs ps) ≠ []) ∨
    (decodeMessage ps = some .empty ∧ binaryToString (lsbs ps) = []) := by
  have hne : ps ≠ [] := by
    intro h0
    rw [h0] at hlen
    simp at hlen
    have hmul : 1 * 1 ≤ w * h := Nat.mul_le_mul hw hh
    omega
  have hsne : lsbs ps ≠ [] := by
    simp only [lsbs, ne_eq, List.map_eq_nil_iff]
    exact hne
  have hd : decodeMessage ps = streamDecode (lsbs ps) [] [] :=
    decodeLoop_eq_streamDecode ps [] []
  rcases streamDecode_shape (lsbs ps).length (lsbs ps) [] [] le_rfl hsne (by simp)
    with ⟨m, hm⟩ | hnf
  · exact Or.inl ⟨m, by rw [hd, hm]⟩
  · rw [List.nil_append] at hnf
    by_cases hb : binaryToString (lsbs ps) = []
    · right; right
      refine ⟨?_, hb⟩
      rw [hd, hnf, hb]
      simp
    · right; left
      refine ⟨?_, hb⟩
      rw [hd, hnf]
      have hbpos : (binaryToString (lsbs ps)).length > 0 := by
        simpa [List.length_pos] using hb
      simp [hbpos]

theorem extraction_total_witness :
    (∃ m, decodeMessage [(⟨0, 0, 0, 0⟩ : Pixel)] = some (.found m)) ∨
    (decodeMessage [(⟨0, 0, 0, 0⟩ : Pixel)] =
        some (.notFound (binaryToString (lsbs [⟨0, 0, 0, 0⟩]))) ∧
      binaryToString (lsbs [⟨0, 0, 0, 0⟩]) ≠ []) ∨
    (decodeMessage [(⟨0, 0, 0, 0⟩ : Pixel)] = some .empty ∧
      binaryToString (lsbs [⟨0, 0, 0, 0⟩]) = []) :=
  extraction_total 1 1 [⟨0, 0, 0, 0⟩] (by decide) (by decide) (by decide)
